import Mathlib

/-!
Verification development for the geometric box-refinement and deduplication
pipeline of backend/app/services/ar_service.py (class ARService).

Real-number arithmetic of the source (Python floats) is embedded as exact
rational arithmetic over ℚ.  Python strings are embedded as lists of
characters (a Python str is a sequence of code points); the string
operations used by the pipeline (strip, lower, startswith) are defined
structurally below.  Python dicts (used for label deduplication) are
embedded as association lists with insertion-order semantics.
-/

/-- An axis-aligned box, the four-element list [x1, y1, x2, y2] of the source. -/
structure Box where
  x1 : ℚ
  y1 : ℚ
  x2 : ℚ
  y2 : ℚ
deriving DecidableEq

/-- Pixel area of a box, the expression (box[2]-box[0])*(box[3]-box[1])
that the source recomputes inline at each use site. -/
def Box.area (b : Box) : ℚ := (b.x2 - b.x1) * (b.y2 - b.y1)

/-- A raw or intermediate segment: box_pixels, confidence, area_pixels. -/
structure Segment where
  box_pixels : Box
  confidence : ℚ
  area_pixels : ℚ
deriving DecidableEq

instance : Inhabited Segment := ⟨⟨⟨0, 0, 0, 0⟩, 0, 0⟩⟩

/-! Tunable constants from ARService.__init__. -/

/-- self.confidence_threshold = 0.35 -/
def confidence_threshold : ℚ := 35 / 100

/-- self.min_box_area = 1000 -/
def min_box_area : ℚ := 1000

/-- self.iou_threshold = 0.45 -/
def iou_threshold : ℚ := 45 / 100

/-- self.max_components = 50 -/
def max_components : ℕ := 50

/-- self.proximity_threshold = 0.15 -/
def proximity_threshold : ℚ := 15 / 100

/-- self.max_area_ratio = 0.85 -/
def max_area_frac : ℚ := 85 / 100

/-- self.min_area_ratio = 0.004 -/
def min_area_frac : ℚ := 4 / 1000

/-- self.min_dimension = 30 -/
def min_dimension : ℚ := 30

/-- self.max_aspect_ratio = 4.0 -/
def max_aspect : ℚ := 4

/-- self.min_color_variance = 10.0 -/
def min_color_variance : ℚ := 10

/-- self.min_edge_density = 0.01 -/
def min_edge_density : ℚ := 1 / 100

/-- self.edge_exclude_margin = 0.02 -/
def edge_exclude_margin : ℚ := 2 / 100

/-- self.tighten_margin = 0.15 -/
def tighten_margin : ℚ := 15 / 100

/-- self.tighten_bg_threshold = 12 -/
def tighten_bg_threshold : ℚ := 12

/-- self.container_min_area_ratio = 0.55 -/
def container_min_area_frac : ℚ := 55 / 100

/-- self.container_min_children = 5 -/
def container_min_children : ℕ := 5

/-- self.nesting_size_ratio = 1.8 -/
def nesting_size_frac : ℚ := 18 / 10

/-! Geometry kernel. -/

/-- The four-sided enclosure test with margin tolerance that the source
writes out verbatim in _contains, _is_nested and geo_contains:
outer[0] <= inner[0] + margin and outer[1] <= inner[1] + margin and
outer[2] >= inner[2] - margin and outer[3] >= inner[3] - margin. -/
def encloses (outer inner : Box) (margin : ℚ) : Bool :=
  decide (outer.x1 ≤ inner.x1 + margin) && decide (outer.y1 ≤ inner.y1 + margin) &&
  decide (inner.x2 - margin ≤ outer.x2) && decide (inner.y2 - margin ≤ outer.y2)

/-- ARService._contains: outer geometrically encloses inner within margin
and outer_area > inner_area * 2.0. -/
def containsBox (outer inner : Box) (margin : ℚ) : Bool :=
  if encloses outer inner margin then
    decide (inner.area * 2 < outer.area)
  else
    false

/-- ARService._is_nested: the size ratio of the larger to the smaller box
is at least nesting_size_ratio and the smaller box is geometrically
contained in the larger one within a 20 px margin. -/
def is_nested (box1 box2 : Box) : Bool :=
  let area1 := box1.area
  let area2 := box2.area
  if min area1 area2 = 0 then false
  else if max area1 area2 / min area1 area2 < nesting_size_frac then false
  else if area2 ≤ area1 then encloses box1 box2 20
  else encloses box2 box1 20

/-- ARService._calculate_iou: intersection over union, 0 when the
intersection rectangle is empty (x2 < x1 or y2 < y1) or the union is not
positive. -/
def calculate_iou (box1 box2 : Box) : ℚ :=
  let x1 := max box1.x1 box2.x1
  let y1 := max box1.y1 box2.y1
  let x2 := min box1.x2 box2.x2
  let y2 := min box1.y2 box2.y2
  if x2 < x1 ∨ y2 < y1 then 0
  else
    let inter := (x2 - x1) * (y2 - y1)
    let union := box1.area + box2.area - inter
    if 0 < union then inter / union else 0

/-! Segment Filter (ARService._filter_segments). -/

/-- The per-segment admission predicate of _filter_segments: a segment
passes exactly when none of the eight rejection checks fires.  Each
conjunct is the negation of one source check, in source order. -/
def segment_passes (img_width img_height : ℚ) (seg : Segment) : Bool :=
  let x1 := seg.box_pixels.x1
  let y1 := seg.box_pixels.y1
  let x2 := seg.box_pixels.x2
  let y2 := seg.box_pixels.y2
  let width_px := x2 - x1
  let height_px := y2 - y1
  let img_area := img_width * img_height
  let area_r := seg.area_pixels / img_area
  -- low confidence
  decide (confidence_threshold ≤ seg.confidence) &&
  -- too small (absolute)
  decide (min_box_area ≤ seg.area_pixels) &&
  -- too small relative to image
  decide (min_area_frac ≤ area_r) &&
  -- too large (background)
  decide (seg.area_pixels ≤ img_area * max_area_frac) &&
  -- extreme aspect ratio
  decide (max width_px height_px / max (min width_px height_px) 1 ≤ max_aspect) &&
  -- too small in either dimension
  decide (min_dimension ≤ width_px ∧ min_dimension ≤ height_px) &&
  -- small box touching the image border
  !(decide (area_r < 8 / 1000) &&
    decide (1 - edge_exclude_margin < y2 / img_height ∨ y1 / img_height < edge_exclude_margin ∨
            x1 / img_width < edge_exclude_margin ∨ 1 - edge_exclude_margin < x2 / img_width)) &&
  -- thin sliver within 5 px of an edge (edge_margin = 10)
  !(decide (x1 < 5 ∨ y1 < 5 ∨ img_width - 5 < x2 ∨ img_height - 5 < y2) &&
    decide (width_px < 10 ∨ height_px < 10))

/-- ARService._filter_segments: keep exactly the segments passing all
checks, preserving input order. -/
def filter_segments (segments : List Segment) (img_width img_height : ℚ) : List Segment :=
  segments.filter (segment_passes img_width img_height)

/-! Overlap Resolver (ARService._remove_overlaps). -/

/-- Python sorted(segments, key=confidence, reverse=True): a stable
descending sort by confidence.  Insertion sort under the total relation
(b.confidence ≤ a.confidence) has the same stable-descending semantics. -/
def sort_by_confidence (segments : List Segment) : List Segment :=
  segments.insertionSort (fun a b => b.confidence ≤ a.confidence)

/-- Step 1 of _remove_overlaps: segment i of the sorted list is a
background box when img_area is truthy (nonzero), its area exceeds
container_min_area_ratio of the image, and it _contains at least
container_min_children of the other segments (default margin 10). -/
def is_background_at (segments : List Segment) (img_area : ℚ) (i : ℕ) : Bool :=
  let seg := segments.getD i default
  decide (img_area ≠ 0) &&
  decide (img_area * container_min_area_frac < seg.area_pixels) &&
  decide (container_min_children ≤
    ((List.range segments.length).filter (fun j =>
      decide (j ≠ i) &&
      containsBox seg.box_pixels (segments.getD j default).box_pixels 10)).length)

/-- Step 1 of _remove_overlaps: drop background boxes; if that would drop
every segment, fall back to the full (sorted) list. -/
def remove_background (segments : List Segment) (img_area : ℚ) : List Segment :=
  let non_background := (segments.enum.filter
    (fun p => !is_background_at segments img_area p.1)).map (fun p => p.2)
  if non_background = [] then segments else non_background

/-- One NMS comparison of a candidate against an already-kept segment:
the candidate survives this comparison when the IoU is at most the
threshold, or the nesting exception applies. -/
def nms_keep_against (seg kept_seg : Segment) : Bool :=
  if iou_threshold < calculate_iou seg.box_pixels kept_seg.box_pixels then
    is_nested seg.box_pixels kept_seg.box_pixels
  else true

/-- One step of the NMS fold of _remove_overlaps step 2: append the
candidate when it survives every comparison with the kept list. -/
def nms_step (kept : List Segment) (seg : Segment) : List Segment :=
  if kept.all (nms_keep_against seg) then kept ++ [seg] else kept

/-- Step 2 of _remove_overlaps: nesting-aware NMS over the sorted,
background-free list. -/
def nms_pass (segments : List Segment) : List Segment :=
  segments.foldl nms_step []

/-- ARService._remove_overlaps: sort by descending confidence, strip
background boxes, then run nesting-aware NMS. -/
def remove_overlaps (segments : List Segment) (img_area : ℚ) : List Segment :=
  if segments = [] then []
  else nms_pass (remove_background (sort_by_confidence segments) img_area)

/-- The relation that holds between any two segments kept by the NMS
pass: their IoU is at most the threshold, or they are nested. -/
def nmsR (s t : Segment) : Prop :=
  calculate_iou s.box_pixels t.box_pixels ≤ iou_threshold ∨
  is_nested s.box_pixels t.box_pixels = true

/-- The three concrete segments of the NMS chain-suppression scenario:
A and B overlap heavily (IoU 7/13), B and C overlap heavily (IoU 7/13),
A and C barely overlap (IoU 1/4); none of the pairs is nested. -/
def nmsSegA : Segment := ⟨⟨0, 0, 100, 100⟩, 9 / 10, 10000⟩

/-- Middle-confidence segment of the chain-suppression scenario. -/
def nmsSegB : Segment := ⟨⟨30, 0, 130, 100⟩, 8 / 10, 10000⟩

/-- Lowest-confidence segment of the chain-suppression scenario. -/
def nmsSegC : Segment := ⟨⟨60, 0, 160, 100⟩, 6 / 10, 10000⟩

/-! Containment Deduplicator (ARService._remove_contained_duplicates). -/

/-- contains_count[i]: how many of the other segments segment i
geometrically contains under geo_contains (pure enclosure with margin
15, no area-ratio gate). -/
def contains_count (segments : List Segment) (i : ℕ) : ℕ :=
  ((List.range segments.length).filter (fun j =>
    decide (j ≠ i) &&
    encloses (segments.getD i default).box_pixels
      (segments.getD j default).box_pixels 15)).length

/-- Index of the first other segment that segment i contains (the inner
loop of _remove_contained_duplicates breaks at the first hit). -/
def first_contained (segments : List Segment) (i : ℕ) : Option ℕ :=
  ((List.range segments.length).filter (fun j =>
    decide (j ≠ i) &&
    encloses (segments.getD i default).box_pixels
      (segments.getD j default).box_pixels 15)).head?

/-- Whether _remove_contained_duplicates removes segment i: it contains
2 or more other segments, or it contains exactly one whose area fills
more than 40% of its own (positive) area. -/
def removed_at (segments : List Segment) (i : ℕ) : Bool :=
  if 2 ≤ contains_count segments i then true
  else if contains_count segments i = 1 then
    match first_contained segments i with
    | some j =>
      decide (0 < (segments.getD i default).box_pixels.area) &&
      decide (40 / 100 < (segments.getD j default).box_pixels.area /
        (segments.getD i default).box_pixels.area)
    | none => false
  else false

/-- ARService._remove_contained_duplicates: with fewer than 2 segments
return the input unchanged; otherwise drop exactly the removed indices,
keeping input order. -/
def remove_contained_duplicates (segments : List Segment) : List Segment :=
  if segments.length < 2 then segments
  else (segments.enum.filter (fun p => !removed_at segments p.1)).map (fun p => p.2)

/-- The removal condition as the specification words it: segment i
contains 2 or more other segments, or exactly 1 other segment whose area
exceeds 40% of the area of the container. -/
def spec_removed (segments : List Segment) (i : ℕ) : Prop :=
  2 ≤ contains_count segments i ∨
  (contains_count segments i = 1 ∧
    ∃ j < segments.length, j ≠ i ∧
      encloses (segments.getD i default).box_pixels
        (segments.getD j default).box_pixels 15 = true ∧
      40 / 100 * (segments.getD i default).box_pixels.area <
        (segments.getD j default).box_pixels.area)

instance (segments : List Segment) (i : ℕ) : Decidable (spec_removed segments i) := by
  unfold spec_removed
  infer_instance

/-! Box Tightener (ARService._tighten_boxes). -/

/-- The grayscale image as an intensity per (row, column), modelling
np.array(img.convert(L), dtype=np.float32).  Boxes are assumed to lie
within the image, so plain offset indexing models the numpy slice. -/
def Img : Type := ℤ → ℤ → ℚ

/-- Python int(): truncation of a float toward zero. -/
def pyInt (q : ℚ) : ℤ := if q < 0 then ⌈q⌉ else ⌊q⌋

/-- np.median of a list of values: mean of the two middle elements of
the sorted list when the length is even, the middle element when odd. -/
def np_median (l : List ℚ) : ℚ :=
  let s := l.insertionSort (fun a b => a ≤ b)
  if l.length % 2 = 1 then s.getD (l.length / 2) 0
  else (s.getD (l.length / 2 - 1) 0 + s.getD (l.length / 2) 0) / 2

/-- The outermost one-pixel ring of an h-by-w crop, in the concatenation
order of the source: crop[0,:], crop[-1,:], crop[:,0], crop[:,-1]. -/
def border_pixels (crop : ℕ → ℕ → ℚ) (h w : ℕ) : List ℚ :=
  (List.range w).map (fun c => crop 0 c) ++
  (List.range w).map (fun c => crop (h - 1) c) ++
  (List.range h).map (fun r => crop r 0) ++
  (List.range h).map (fun r => crop r (w - 1))

/-- np.mean(np.abs(crop[:, col] - bg_val)): mean absolute deviation of
one column of the crop (h rows) from the background estimate. -/
def col_diff (crop : ℕ → ℕ → ℚ) (h : ℕ) (bg : ℚ) (col : ℕ) : ℚ :=
  (((List.range h).map (fun r => |crop r col - bg|)).sum) / h

/-- np.mean(np.abs(crop[row, :] - bg_val)): mean absolute deviation of
one row of the crop (w columns) from the background estimate. -/
def row_diff (crop : ℕ → ℕ → ℚ) (w : ℕ) (bg : ℚ) (row : ℕ) : ℚ :=
  (((List.range w).map (fun c => |crop row c - bg|)).sum) / w

/-- Each trim loop of _tighten_boxes breaks at the first probed line
whose deviation exceeds tighten_bg_threshold, having recorded how many
lines it passed: the length of the passing prefix of the probe order. -/
def trim_len (diff : ℕ → ℚ) (bound : ℕ) : ℕ :=
  ((List.range bound).takeWhile (fun i => decide (diff i ≤ tighten_bg_threshold))).length

/-- The trimmed rectangle (new_x1, new_y1, new_x2, new_y2) computed by
_tighten_boxes for one segment: background estimate from the border
median of the border ring, then per-side inward probing bounded by
tighten_margin of the dimension of that side. -/
def trimmed_coords (img : Img) (seg : Segment) : ℤ × ℤ × ℤ × ℤ :=
  let x1 := pyInt seg.box_pixels.x1
  let y1 := pyInt seg.box_pixels.y1
  let x2 := pyInt seg.box_pixels.x2
  let y2 := pyInt seg.box_pixels.y2
  let box_w := x2 - x1
  let box_h := y2 - y1
  let w := box_w.toNat
  let h := box_h.toNat
  let crop : ℕ → ℕ → ℚ := fun r c => img (y1 + r) (x1 + c)
  let bg_val := np_median (border_pixels crop h w)
  let max_trim_x := (pyInt ((box_w : ℚ) * tighten_margin)).toNat
  let max_trim_y := (pyInt ((box_h : ℚ) * tighten_margin)).toNat
  let trim_left := trim_len (fun c => col_diff crop h bg_val c) (min max_trim_x (w - 1))
  let trim_right := trim_len (fun i => col_diff crop h bg_val (w - 1 - i)) (min max_trim_x (w - 1))
  let trim_top := trim_len (fun r => row_diff crop w bg_val r) (min max_trim_y (h - 1))
  let trim_bottom := trim_len (fun i => row_diff crop w bg_val (h - 1 - i)) (min max_trim_y (h - 1))
  (x1 + trim_left, y1 + trim_top, x2 - trim_right, y2 - trim_bottom)

/-- The safety condition under which _tighten_boxes adopts the trimmed
rectangle: both trimmed dimensions at least min_dimension and trimmed
aspect ratio at most max_aspect_ratio. -/
def tightened_ok (nx1 ny1 nx2 ny2 : ℤ) : Prop :=
  min_dimension ≤ ((nx2 - nx1 : ℤ) : ℚ) ∧ min_dimension ≤ ((ny2 - ny1 : ℤ) : ℚ) ∧
  max ((nx2 - nx1 : ℤ) : ℚ) ((ny2 - ny1 : ℤ) : ℚ) /
    max (min ((nx2 - nx1 : ℤ) : ℚ) ((ny2 - ny1 : ℤ) : ℚ)) 1 ≤ max_aspect

instance (nx1 ny1 nx2 ny2 : ℤ) : Decidable (tightened_ok nx1 ny1 nx2 ny2) := by
  unfold tightened_ok
  infer_instance

/-- ARService._tighten_boxes on one segment: pass boxes with either
int dimension below 10 through untouched; otherwise adopt the trimmed
rectangle (and its recomputed area) only when it satisfies the safety
condition, else keep the segment unchanged. -/
def tighten_one (img : Img) (seg : Segment) : Segment :=
  if pyInt seg.box_pixels.x2 - pyInt seg.box_pixels.x1 < 10 ∨
     pyInt seg.box_pixels.y2 - pyInt seg.box_pixels.y1 < 10 then seg
  else
    match trimmed_coords img seg with
    | (nx1, ny1, nx2, ny2) =>
      if tightened_ok nx1 ny1 nx2 ny2 then
        { seg with
          box_pixels := ⟨(nx1 : ℚ), (ny1 : ℚ), (nx2 : ℚ), (ny2 : ℚ)⟩,
          area_pixels := ((nx2 - nx1 : ℤ) : ℚ) * ((ny2 - ny1 : ℤ) : ℚ) }
      else seg

/-- ARService._tighten_boxes: one output segment per input segment, in
order. -/
def tighten_boxes (segments : List Segment) (img : Img) : List Segment :=
  segments.map (tighten_one img)

/-- The constant-zero grayscale image used by the Box Tightener witness. -/
def imgZero : Img := fun _ _ => 0

/-- The 12-by-12 segment used by the Box Tightener witness. -/
def tightSegW : Segment := ⟨⟨0, 0, 12, 12⟩, 1 / 2, 144⟩

/-! Python strings as lists of code points. -/

/-- Code points of a Lean string literal, used to write the Python string
literals of the source. -/
def pyStr (s : String) : List Char := s.data

/-- Python str.lower on one code point, modelled on the ASCII range that
the labels of the pipeline use. -/
def lowerChar (c : Char) : Char :=
  if 'A' ≤ c ∧ c ≤ 'Z' then Char.ofNat (c.toNat + 32) else c

/-- Python str.lower, code point by code point. -/
def pyLower (s : List Char) : List Char := s.map lowerChar

/-- The whitespace set of Python str.strip(). -/
def pyIsSpace (c : Char) : Bool :=
  decide (c = ' ') || decide (c = '\t') || decide (c = '\n') ||
  decide (c = '\r') || decide (c = '\x0b') || decide (c = '\x0c')

/-- Python str.strip(): drop whitespace from both ends. -/
def pyStrip (s : List Char) : List Char :=
  ((s.dropWhile pyIsSpace).reverse.dropWhile pyIsSpace).reverse

/-- Python str.startswith. -/
def startsWithL : List Char → List Char → Bool
  | [], _ => true
  | _ :: _, [] => false
  | p :: ps, c :: cs => decide (p = c) && startsWithL ps cs

/-- The character of a decimal digit. -/
def digitChar (n : ℕ) : Char := Char.ofNat (48 + n)

/-- Decimal rendering of a natural number, with explicit fuel (n+1 fuel
always suffices since the number shrinks ten-fold each step). -/
def natToDigitsAux : ℕ → ℕ → List Char
  | 0, _ => []
  | fuel + 1, n =>
    if n < 10 then [digitChar n]
    else natToDigitsAux fuel (n / 10) ++ [digitChar (n % 10)]

/-- Decimal rendering of a natural number. -/
def natToDigits (n : ℕ) : List Char := natToDigitsAux (n + 1) n

/-- The id string component_i (a Python f-string) that the Normalizer assigns. -/
def compId (i : ℕ) : List Char := pyStr "component_" ++ natToDigits i

/-- Left inverse of the decimal rendering, used to prove id uniqueness. -/
def parseDigits (l : List Char) : ℕ := l.foldl (fun a c => 10 * a + (c.toNat - 48)) 0

/-! Normalizer (ARService._normalize_components). -/

/-- The public AR component record produced by _normalize_components. -/
structure Component where
  id : List Char
  x : ℚ
  y : ℚ
  width : ℚ
  height : ℚ
  center_x : ℚ
  center_y : ℚ
  confidence : ℚ
  area : ℚ
  label : Option (List Char)
  description : Option (List Char)
deriving DecidableEq

instance : Inhabited Component := ⟨⟨[], 0, 0, 0, 0, 0, 0, 0, 0, none, none⟩⟩

/-- ARService._normalize_components: the i-th surviving segment (in list
order) becomes component_i with coordinates normalized by the image
dimensions. -/
def normalize_components (segments : List Segment) (img_width img_height : ℚ) :
    List Component :=
  segments.enum.map (fun p =>
    let width_px := p.2.box_pixels.x2 - p.2.box_pixels.x1
    let height_px := p.2.box_pixels.y2 - p.2.box_pixels.y1
    { id := compId p.1,
      x := p.2.box_pixels.x1 / img_width,
      y := p.2.box_pixels.y1 / img_height,
      width := width_px / img_width,
      height := height_px / img_height,
      center_x := (p.2.box_pixels.x1 + width_px / 2) / img_width,
      center_y := (p.2.box_pixels.y1 + height_px / 2) / img_height,
      confidence := p.2.confidence,
      area := (width_px * height_px) / (img_width * img_height),
      label := none,
      description := none })

/-- The first detector segment of the id-ordering counterexample (lower
confidence, first in detector order). -/
def detSegFirst : Segment := ⟨⟨0, 0, 100, 100⟩, 1 / 2, 10000⟩

/-- The second detector segment of the id-ordering counterexample
(higher confidence, second in detector order). -/
def detSegSecond : Segment := ⟨⟨200, 0, 300, 100⟩, 9 / 10, 10000⟩

/-! Visual Complexity Filter (ARService._filter_by_visual_complexity). -/

/-- ARService._has_sufficient_color_variance: the grayscale
standard deviation must exceed min_color_variance.  The PIL/numpy
measurement may raise; none models the raised exception, and the except
branch of the source returns True. -/
def has_sufficient_color_variance (varianceOpt : Option ℚ) : Bool :=
  match varianceOpt with
  | some variance => decide (min_color_variance < variance)
  | none => true

/-- ARService._has_sufficient_edges: the fraction of crop pixels with
gradient magnitude above 8 must exceed min_edge_density; the except
branch of the source returns True. -/
def has_sufficient_edges (edgeDensityOpt : Option ℚ) : Bool :=
  match edgeDensityOpt with
  | some edge_density => decide (min_edge_density < edge_density)
  | none => true

/-- ARService._filter_by_visual_complexity: segments of at least 1.5% of
the image bypass the check; smaller segments pass when either test
passes (OR semantics).  The two oracle functions give the crop
measurement of each segment, none standing for a raised exception. -/
def filter_by_visual_complexity (segments : List Segment) (img_area : ℚ)
    (varianceOf edgeDensityOf : Segment → Option ℚ) : List Segment :=
  segments.filter (fun seg =>
    if 15 / 1000 ≤ seg.area_pixels / img_area then true
    else has_sufficient_color_variance (varianceOf seg) ||
         has_sufficient_edges (edgeDensityOf seg))

/-- The small segment of the fail-open witness (1% of the image). -/
def vcSegW : Segment := ⟨⟨0, 0, 100, 100⟩, 9 / 10, 10000⟩

/-! Relationship Analyzer (ARService.analyze_component_relationships). -/

/-- The square of the normalized center-to-center Euclidean
distance of _distance.  The source compares sqrt of this value against
proximity_threshold; the comparison is carried out on squares here,
equivalent by monotonicity of sqrt (see the sqrt bridge conjunct of the
claim theorem). -/
def distance_sq (comp1 comp2 : Component) : ℚ :=
  (comp1.center_x - comp2.center_x) ^ 2 + (comp1.center_y - comp2.center_y) ^ 2

/-- A connection record with the from, to and distance entries of the
source (from and to are Lean keywords, rendered frm and tgt); dist_sq
carries the square of the emitted distance. -/
structure Connection where
  frm : List Char
  tgt : List Char
  dist_sq : ℚ
deriving DecidableEq

/-- The pair enumeration of analyze_component_relationships:
for i, comp1 in enumerate(components): for comp2 in components[i+1:]. -/
def pairsFrom : List Component → List (Component × Component)
  | [] => []
  | c :: rest => rest.map (fun d => (c, d)) ++ pairsFrom rest

/-- ARService.analyze_component_relationships: fewer than 2 components
give no connections; otherwise one record per enumerated pair whose
center distance is below proximity_threshold.  (The groups entry of the
source dict is always the empty list.) -/
def analyze_component_relationships (components : List Component) : List Connection :=
  if components.length < 2 then []
  else (pairsFrom components).filterMap (fun p =>
    if distance_sq p.1 p.2 < proximity_threshold ^ 2 then
      some ⟨p.1.id, p.2.id, distance_sq p.1 p.2⟩
    else none)

/-- First component of the Relationship Analyzer witness (center at
(0.1, 0.1)). -/
def relCompA : Component := ⟨compId 0, 0, 0, 0, 0, 1 / 10, 1 / 10, 9 / 10, 0, none, none⟩

/-- Second component of the Relationship Analyzer witness (center at
(0.15, 0.1), squared distance 0.0025 from the first). -/
def relCompB : Component := ⟨compId 1, 0, 0, 0, 0, 3 / 20, 1 / 10, 8 / 10, 0, none, none⟩

/-! Labeler deduplication (ARService._deduplicate_by_label). -/

/-- Lookup in a Python dict embedded as an association list. -/
def dictFind (k : List Char) : List (List Char × Component) → Option Component
  | [] => none
  | (k2, v) :: rest => if k2 = k then some v else dictFind k rest

/-- Python dict assignment d[k] = v: replace the value in place when the
key exists (its insertion position is preserved), else append. -/
def dictInsert (k : List Char) (v : Component) :
    List (List Char × Component) → List (List Char × Component)
  | [] => [(k, v)]
  | (k2, v2) :: rest =>
    if k2 = k then (k, v) :: rest else (k2, v2) :: dictInsert k v rest

/-- The dedup key of a component: its label (or empty when missing),
stripped and lower-cased. -/
def cleanedLabel (comp : Component) : List Char :=
  pyLower (pyStrip (comp.label.getD []))

/-- Whether _deduplicate_by_label keys the component by its own id
rather than by its label: empty label, component placeholder label, or
the unknown / unlabeled labels. -/
def keyedById (comp : Component) : Bool :=
  decide (cleanedLabel comp = []) ||
  startsWithL (pyStr "component") (cleanedLabel comp) ||
  decide (cleanedLabel comp = pyStr "unknown") ||
  decide (cleanedLabel comp = pyStr "unlabeled")

/-- One loop iteration of _deduplicate_by_label over the seen_labels
dict, with the two early branches of the source. -/
def dedupStep (seen : List (List Char × Component)) (comp : Component) :
    List (List Char × Component) :=
  if decide (cleanedLabel comp = []) ||
     startsWithL (pyStr "component") (cleanedLabel comp) then
    dictInsert comp.id comp seen
  else if decide (cleanedLabel comp = pyStr "unknown") ||
          decide (cleanedLabel comp = pyStr "unlabeled") then
    dictInsert comp.id comp seen
  else
    match dictFind (cleanedLabel comp) seen with
    | none => dictInsert (cleanedLabel comp) comp seen
    | some existing =>
      if existing.confidence < comp.confidence then
        dictInsert (cleanedLabel comp) comp seen
      else seen

/-- ARService._deduplicate_by_label: fold the components through the
seen_labels dict and return its values in insertion order. -/
def deduplicate_by_label (components : List Component) : List Component :=
  (components.foldl dedupStep []).map (fun e => e.2)

/-- The key under which dedupStep stores a component. -/
def entryKey (comp : Component) : List Char :=
  if keyedById comp then comp.id else cleanedLabel comp

/-- The invariant maintained over the seen_labels dict after processing
the prefix p of the component list: entries hold processed components
under their entry key; keys are unique; every placeholder/unknown
component is present under its id; every labelled component has a
surviving representative of its label with at least its confidence. -/
def SeenInv (p : List Component) (seen : List (List Char × Component)) : Prop :=
  (∀ e ∈ seen, e.2 ∈ p ∧ e.1 = entryKey e.2) ∧
  ((seen.map (fun e => e.1)).Nodup) ∧
  (∀ c ∈ p, keyedById c = true → (c.id, c) ∈ seen) ∧
  (∀ c ∈ p, keyedById c = false → ∃ v, (cleanedLabel c, v) ∈ seen ∧
    keyedById v = false ∧ cleanedLabel v = cleanedLabel c ∧ c.confidence ≤ v.confidence)

/-- First Valve component of the label-dedup witness (confidence 0.6). -/
def valveComp1 : Component :=
  ⟨compId 0, 0, 0, 0, 0, 0, 0, 6 / 10, 0, some (pyStr "Valve"), none⟩

/-- Second Valve component of the label-dedup witness (confidence 0.9). -/
def valveComp2 : Component :=
  ⟨compId 1, 0, 0, 0, 0, 0, 0, 9 / 10, 0, some (pyStr "Valve"), none⟩

/-- An unknown-labelled component of the label-dedup witness. -/
def unknownComp : Component :=
  ⟨compId 2, 0, 0, 0, 0, 0, 0, 1 / 2, 0, some (pyStr "unknown"), none⟩

/-- Claim C6: for boxes with nonnegative area (the data-model invariant
guarantees positive area), containment is asymmetric: if containsBox A B
margin holds, which requires area A > 2 * area B, then containsBox B A
margin is false for the same margin. -/
theorem contains_asymm (A B : Box) (margin : ℚ)
    (hA : 0 ≤ A.area) (hB : 0 ≤ B.area)
    (h : containsBox A B margin = true) : containsBox B A margin = false := by
  by_contra hcon
  rw [Bool.not_eq_false] at hcon
  unfold containsBox at h hcon
  split at h
  · split at hcon
    · have h1 : B.area * 2 < A.area := of_decide_eq_true h
      have h2 : A.area * 2 < B.area := of_decide_eq_true hcon
      linarith
    · exact Bool.false_ne_true hcon
  · exact Bool.false_ne_true h

/-- Witness for C6 at concrete boxes A = [0,0,100,100], B = [20,20,40,40],
margin 10. -/
theorem contains_asymm_witness :
    (0 : ℚ) ≤ (Box.mk 0 0 100 100).area ∧ (0 : ℚ) ≤ (Box.mk 20 20 40 40).area ∧
    (containsBox (Box.mk 0 0 100 100) (Box.mk 20 20 40 40) 10 = true →
      containsBox (Box.mk 20 20 40 40) (Box.mk 0 0 100 100) 10 = false) :=
  ⟨by norm_num [Box.area], by norm_num [Box.area],
   contains_asymm (Box.mk 0 0 100 100) (Box.mk 20 20 40 40) 10
     (by norm_num [Box.area]) (by norm_num [Box.area])⟩

/-- Commutativity of the IoU kernel, stated separately because later
claims reuse it. -/
theorem calculate_iou_comm (box1 box2 : Box) :
    calculate_iou box1 box2 = calculate_iou box2 box1 := by
  unfold calculate_iou
  rw [max_comm box1.x1 box2.x1, max_comm box1.y1 box2.y1,
    min_comm box1.x2 box2.x2, min_comm box1.y2 box2.y2,
    add_comm box1.area box2.area]

/-- Symmetry of the nesting test, reused by the NMS claims. -/
theorem is_nested_comm (box1 box2 : Box) :
    is_nested box1 box2 = is_nested box2 box1 := by
  simp only [is_nested]
  rw [min_comm box1.area box2.area, max_comm box1.area box2.area]
  rcases lt_trichotomy box1.area box2.area with h | h | h
  · rw [if_neg (not_le.mpr h), if_pos h.le]
  · rw [h]
    simp only [inf_idem, sup_idem]
    by_cases h0 : box2.area = 0
    · rw [if_pos h0, if_pos h0]
    · rw [if_neg h0, if_neg h0, div_self h0,
        if_pos (by norm_num [nesting_size_frac]), if_pos (by norm_num [nesting_size_frac])]
  · rw [if_pos h.le, if_neg (not_le.mpr h)]

/-- Claim C7: the IoU function is symmetric; it equals 1 on any box with
positive extent paired with itself; and it returns 0 whenever the
intersection rectangle is empty (min x2 < max x1 or min y2 < max y1). -/
theorem iou_kernel_properties :
    (∀ box1 box2 : Box, calculate_iou box1 box2 = calculate_iou box2 box1) ∧
    (∀ b : Box, b.x1 < b.x2 → b.y1 < b.y2 → calculate_iou b b = 1) ∧
    (∀ box1 box2 : Box,
      (min box1.x2 box2.x2 < max box1.x1 box2.x1 ∨
       min box1.y2 box2.y2 < max box1.y1 box2.y1) →
      calculate_iou box1 box2 = 0) := by
  refine ⟨calculate_iou_comm, ?_, ?_⟩
  · intro b hx hy
    have harea : 0 < b.area := mul_pos (by linarith) (by linarith)
    unfold calculate_iou
    simp only [max_self, min_self]
    rw [if_neg (by push_neg; constructor <;> linarith)]
    have hunion : b.area + b.area - (b.x2 - b.x1) * (b.y2 - b.y1) = b.area := by
      unfold Box.area; ring
    rw [hunion, if_pos harea]
    exact div_self (ne_of_gt harea)
  · intro box1 box2 h
    unfold calculate_iou
    rw [if_pos h]

/-- Witness for C7: concrete evaluation of all three parts; the second
part hypotheses are discharged at b = [3,4,13,24], the third at the
disjoint pair [0,0,10,10], [20,0,30,10]. -/
theorem iou_kernel_properties_witness :
    calculate_iou (Box.mk 0 0 10 10) (Box.mk 2 2 8 8) =
      calculate_iou (Box.mk 2 2 8 8) (Box.mk 0 0 10 10) ∧
    calculate_iou (Box.mk 3 4 13 24) (Box.mk 3 4 13 24) = 1 ∧
    calculate_iou (Box.mk 0 0 10 10) (Box.mk 20 0 30 10) = 0 :=
  ⟨iou_kernel_properties.1 (Box.mk 0 0 10 10) (Box.mk 2 2 8 8),
   iou_kernel_properties.2.1 (Box.mk 3 4 13 24) (by norm_num) (by norm_num),
   iou_kernel_properties.2.2 (Box.mk 0 0 10 10) (Box.mk 20 0 30 10) (by norm_num)⟩

/-- Claim C5: the Segment Filter output is a subsequence of its input
(no segment is invented or altered, relative order preserved), and a
segment is in the output exactly when it is in the input and passes all
rejection checks. -/
theorem filter_segments_subsequence :
    (∀ (segments : List Segment) (img_width img_height : ℚ),
      (filter_segments segments img_width img_height).Sublist segments) ∧
    (∀ (segments : List Segment) (img_width img_height : ℚ) (seg : Segment),
      seg ∈ filter_segments segments img_width img_height ↔
        seg ∈ segments ∧ segment_passes img_width img_height seg = true) := by
  constructor
  · intro segments img_width img_height
    exact List.filter_sublist segments
  · intro segments img_width img_height seg
    exact List.mem_filter

theorem nms_keep_against_eq_true (seg k : Segment) :
    nms_keep_against seg k = true ↔ nmsR k seg := by
  unfold nms_keep_against nmsR
  rw [calculate_iou_comm k.box_pixels seg.box_pixels,
    is_nested_comm k.box_pixels seg.box_pixels]
  split
  · rename_i hlt
    exact ⟨fun h => Or.inr h, fun h => h.resolve_left (not_le.mpr hlt)⟩
  · rename_i hle
    exact iff_of_true rfl (Or.inl (not_lt.mp (fun h => hle h)))

theorem nms_keep_against_eq_false (seg k : Segment) :
    nms_keep_against seg k = false ↔
      (iou_threshold < calculate_iou seg.box_pixels k.box_pixels ∧
       is_nested seg.box_pixels k.box_pixels = false) := by
  unfold nms_keep_against
  split
  · rename_i hlt
    exact ⟨fun h => ⟨hlt, h⟩, fun h => h.2⟩
  · rename_i hle
    exact iff_of_false (by simp) (fun h => hle h.1)

theorem mem_nms_foldl_of_mem_acc (segments : List Segment) :
    ∀ (acc : List Segment) (x : Segment), x ∈ acc →
      x ∈ segments.foldl nms_step acc := by
  induction segments with
  | nil => intro acc x hx; simpa using hx
  | cons t rest ih =>
    intro acc x hx
    rw [List.foldl_cons]
    refine ih (nms_step acc t) x ?_
    unfold nms_step
    split
    · exact List.mem_append_left _ hx
    · exact hx

theorem nms_foldl_sublist (segments : List Segment) :
    ∀ acc : List Segment,
      (segments.foldl nms_step acc).Sublist (acc ++ segments) := by
  induction segments with
  | nil => intro acc; simp
  | cons t rest ih =>
    intro acc
    rw [List.foldl_cons]
    refine (ih (nms_step acc t)).trans ?_
    unfold nms_step
    split
    · rw [List.append_assoc, List.singleton_append]
    · exact List.Sublist.append_left (List.sublist_cons_self t rest) acc

theorem nms_foldl_pairwise (segments : List Segment) :
    ∀ acc : List Segment, acc.Pairwise nmsR →
      (segments.foldl nms_step acc).Pairwise nmsR := by
  induction segments with
  | nil => intro acc h; simpa using h
  | cons t rest ih =>
    intro acc hacc
    rw [List.foldl_cons]
    refine ih (nms_step acc t) ?_
    unfold nms_step
    split
    · rename_i hall
      rw [List.pairwise_append]
      refine ⟨hacc, List.pairwise_singleton _ _, ?_⟩
      intro a ha b hb
      rw [List.mem_singleton] at hb
      subst hb
      exact (nms_keep_against_eq_true b a).mp (List.all_eq_true.mp hall a ha)
    · exact hacc

theorem nms_foldl_suppressed (segments : List Segment) :
    ∀ acc : List Segment,
      segments.Pairwise (fun a b => b.confidence ≤ a.confidence) →
      (∀ k ∈ acc, ∀ s ∈ segments, s.confidence ≤ k.confidence) →
      ∀ s ∈ segments, s ∉ segments.foldl nms_step acc →
      ∃ k ∈ segments.foldl nms_step acc, s.confidence ≤ k.confidence ∧
        iou_threshold < calculate_iou s.box_pixels k.box_pixels ∧
        is_nested s.box_pixels k.box_pixels = false := by
  induction segments with
  | nil => intro acc _ _ s hs; exact absurd hs (List.not_mem_nil s)
  | cons t rest ih =>
    intro acc hsorted hconf s hs hnot
    rw [List.foldl_cons] at hnot ⊢
    rw [List.pairwise_cons] at hsorted
    rcases List.mem_cons.mp hs with rfl | hsrest
    · by_cases hall : acc.all (nms_keep_against s)
      · exfalso
        refine hnot (mem_nms_foldl_of_mem_acc rest (nms_step acc s) s ?_)
        unfold nms_step
        rw [if_pos hall]
        exact List.mem_append_right _ (List.mem_singleton_self s)
      · rcases List.all_eq_false.mp (Bool.eq_false_iff.mpr hall) with ⟨k, hk, hkfalse⟩
        rcases (nms_keep_against_eq_false s k).mp (Bool.eq_false_iff.mpr hkfalse) with ⟨hiou, hnest⟩
        refine ⟨k, ?_, hconf k hk s (List.mem_cons_self s rest), hiou, hnest⟩
        refine mem_nms_foldl_of_mem_acc rest (nms_step acc s) k ?_
        unfold nms_step
        split
        · exact List.mem_append_left _ hk
        · exact hk
    · refine ih (nms_step acc t) hsorted.2 ?_ s hsrest hnot
      intro k hk s' hs'
      unfold nms_step at hk
      have hkcases : k ∈ acc ∨ k = t := by
        split at hk
        · rcases List.mem_append.mp hk with h | h
          · exact Or.inl h
          · exact Or.inr (List.mem_singleton.mp h)
        · exact Or.inl hk
      rcases hkcases with h | rfl
      · exact hconf k h s' (List.mem_cons_of_mem t hs')
      · exact hsorted.1 s' hs'

/-- Counterexample to claim C2 as stated: in a confidence-sorted input
[A, B, C], the pair (B, C) has IoU above the threshold and fails the
nesting test, yet the NMS pass keeps the lower-confidence C and
suppresses the higher-confidence B (B was already suppressed by A, so it
can no longer suppress C).  The universally quantified pair
property is therefore false. -/
theorem nms_pair_claim_counterexample :
    [nmsSegA, nmsSegB, nmsSegC].Pairwise (fun a b => b.confidence ≤ a.confidence) ∧
    iou_threshold < calculate_iou nmsSegB.box_pixels nmsSegC.box_pixels ∧
    is_nested nmsSegB.box_pixels nmsSegC.box_pixels = false ∧
    nmsSegC.confidence < nmsSegB.confidence ∧
    nms_pass [nmsSegA, nmsSegB, nmsSegC] = [nmsSegA, nmsSegC] := by
  refine ⟨?_, ?_, ?_, ?_, ?_⟩
  · norm_num [nmsSegA, nmsSegB, nmsSegC]
  · norm_num [nmsSegB, nmsSegC, calculate_iou, Box.area, iou_threshold, max_def, min_def]
  · norm_num [nmsSegB, nmsSegC, is_nested, Box.area, nesting_size_frac, max_def, min_def]
  · norm_num [nmsSegB, nmsSegC]
  · norm_num [nms_pass, nms_step, nms_keep_against, nmsSegA, nmsSegB, nmsSegC,
      calculate_iou, is_nested, encloses, Box.area, iou_threshold, nesting_size_frac,
      max_def, min_def]

/-- Claim C2 amended: the Overlap Resolver processes segments in
descending confidence order (the sort is descending); the NMS pass
returns a subsequence of its input in which every pair of kept segments
either has IoU at most the threshold or passes the nesting test; and for
a confidence-sorted input every suppressed segment is suppressed by some
kept segment of at least its confidence with which it has IoU above the
threshold and fails the nesting test.  (As stated the claim is false for
pairs of which neither member is kept against the other, see the
counterexample.) -/
theorem nms_amended :
    (∀ segments : List Segment,
      (sort_by_confidence segments).Pairwise (fun a b => b.confidence ≤ a.confidence)) ∧
    (∀ segments : List Segment, (nms_pass segments).Sublist segments) ∧
    (∀ segments : List Segment, (nms_pass segments).Pairwise nmsR) ∧
    (∀ segments : List Segment,
      segments.Pairwise (fun a b => b.confidence ≤ a.confidence) →
      ∀ seg ∈ segments, seg ∉ nms_pass segments →
      ∃ k ∈ nms_pass segments, seg.confidence ≤ k.confidence ∧
        iou_threshold < calculate_iou seg.box_pixels k.box_pixels ∧
        is_nested seg.box_pixels k.box_pixels = false) := by
  refine ⟨?_, ?_, ?_, ?_⟩
  · intro segments
    letI : IsTotal Segment (fun a b => b.confidence ≤ a.confidence) :=
      ⟨fun a b => le_total b.confidence a.confidence⟩
    letI : IsTrans Segment (fun a b => b.confidence ≤ a.confidence) :=
      ⟨fun a b c hab hbc => le_trans hbc hab⟩
    exact List.sorted_insertionSort _ segments
  · intro segments
    simpa using nms_foldl_sublist segments []
  · intro segments
    exact nms_foldl_pairwise segments [] (List.Pairwise.nil)
  · intro segments hsorted seg hseg hnot
    exact nms_foldl_suppressed segments [] hsorted (by intro k hk; simp at hk) seg hseg hnot

/-- Witness for the amended C2 at the concrete sorted list [A, B, C]:
B is suppressed, and the theorem produces a kept suppressor of at least
the confidence of B, with high IoU and failed nesting test. -/
theorem nms_amended_witness :
    [nmsSegA, nmsSegB, nmsSegC].Pairwise (fun a b => b.confidence ≤ a.confidence) ∧
    nmsSegB ∈ [nmsSegA, nmsSegB, nmsSegC] ∧
    nmsSegB ∉ nms_pass [nmsSegA, nmsSegB, nmsSegC] ∧
    ∃ k ∈ nms_pass [nmsSegA, nmsSegB, nmsSegC],
      nmsSegB.confidence ≤ k.confidence ∧
      iou_threshold < calculate_iou nmsSegB.box_pixels k.box_pixels ∧
      is_nested nmsSegB.box_pixels k.box_pixels = false := by
  have h1 : [nmsSegA, nmsSegB, nmsSegC].Pairwise (fun a b => b.confidence ≤ a.confidence) := by
    norm_num [nmsSegA, nmsSegB, nmsSegC]
  have h2 : nmsSegB ∈ [nmsSegA, nmsSegB, nmsSegC] := by simp
  have h3 : nmsSegB ∉ nms_pass [nmsSegA, nmsSegB, nmsSegC] := by
    norm_num [nms_pass, nms_step, nms_keep_against, nmsSegA, nmsSegB, nmsSegC,
      calculate_iou, is_nested, encloses, Box.area, iou_threshold, nesting_size_frac,
      max_def, min_def]
  exact ⟨h1, h2, h3, nms_amended.2.2.2 [nmsSegA, nmsSegB, nmsSegC] h1 nmsSegB h2 h3⟩

theorem removed_at_iff_spec (segments : List Segment)
    (hpos : ∀ s ∈ segments, 0 < s.box_pixels.area) (i : ℕ) (hi : i < segments.length) :
    removed_at segments i = true ↔ spec_removed segments i := by
  have hpa : 0 < (segments.getD i default).box_pixels.area := by
    refine hpos _ ?_
    rw [List.getD_eq_getElem segments default hi]
    exact List.getElem_mem hi
  by_cases h2 : 2 ≤ contains_count segments i
  · rw [removed_at, if_pos h2]
    exact iff_of_true rfl (Or.inl h2)
  · by_cases h1 : contains_count segments i = 1
    · obtain ⟨j₀, hj₀⟩ := List.length_eq_one.mp h1
      have hfc : first_contained segments i = some j₀ := by
        unfold first_contained
        rw [hj₀]
        rfl
      have hj₀mem : j₀ ∈ (List.range segments.length).filter (fun j =>
          decide (j ≠ i) &&
          encloses (segments.getD i default).box_pixels
            (segments.getD j default).box_pixels 15) := by
        rw [hj₀]
        exact List.mem_singleton_self j₀
      have hj₀lt : j₀ < segments.length := List.mem_range.mp (List.mem_filter.mp hj₀mem).1
      have hj₀cond := (List.mem_filter.mp hj₀mem).2
      rw [Bool.and_eq_true] at hj₀cond
      have hj₀ne : j₀ ≠ i := of_decide_eq_true hj₀cond.1
      have hj₀enc := hj₀cond.2
      rw [removed_at, if_neg h2, if_pos h1, hfc]
      constructor
      · intro hb
        rw [Bool.and_eq_true] at hb
        have hdiv := of_decide_eq_true hb.2
        rw [lt_div_iff hpa] at hdiv
        exact Or.inr ⟨h1, j₀, hj₀lt, hj₀ne, hj₀enc, hdiv⟩
      · rintro (h | ⟨-, j, hjlt, hjne, hjenc, hjlt40⟩)
        · exact absurd h h2
        · have hjmem : j ∈ (List.range segments.length).filter (fun j =>
              decide (j ≠ i) &&
              encloses (segments.getD i default).box_pixels
                (segments.getD j default).box_pixels 15) := by
            rw [List.mem_filter]
            exact ⟨List.mem_range.mpr hjlt, by rw [Bool.and_eq_true]; exact ⟨decide_eq_true hjne, hjenc⟩⟩
          have hjeq : j = j₀ := by
            rw [hj₀] at hjmem
            exact List.mem_singleton.mp hjmem
          subst hjeq
          rw [Bool.and_eq_true]
          exact ⟨decide_eq_true hpa, decide_eq_true ((lt_div_iff hpa).mpr hjlt40)⟩
    · rw [removed_at, if_neg h2, if_neg h1]
      refine iff_of_false (by simp) ?_
      rintro (h | ⟨h, -⟩)
      · exact h2 h
      · exact h1 h

/-- Claim C3: under the data-model invariant of positive box areas, the
Containment Deduplicator removes a segment exactly when the specified
condition holds (2 or more contained segments, or exactly one contained
segment filling more than 40% of the container), and the survivors are
returned in input order (the output is the order-preserving filter of
the input, hence a subsequence of it). -/
theorem containment_dedup_characterization (segments : List Segment)
    (hpos : ∀ s ∈ segments, 0 < s.box_pixels.area) :
    remove_contained_duplicates segments =
      (segments.enum.filter (fun p => decide (¬ spec_removed segments p.1))).map
        (fun p => p.2) ∧
    (remove_contained_duplicates segments).Sublist segments := by
  have hmain : remove_contained_duplicates segments =
      (segments.enum.filter (fun p => decide (¬ spec_removed segments p.1))).map
        (fun p => p.2) := by
    by_cases hlen : segments.length < 2
    · match segments, hlen with
      | [], _ => rfl
      | [a], _ =>
        have hns : ¬ spec_removed [a] 0 := by
          have hcc : contains_count [a] 0 = 0 := by
            unfold contains_count
            simp
          rintro (h | ⟨h, -⟩) <;> rw [hcc] at h <;> omega
        simp [remove_contained_duplicates, hns]
    · rw [remove_contained_duplicates, if_neg hlen]
      refine congrArg _ (List.filter_congr ?_)
      rintro ⟨i, s⟩ hp
      have hi : i < segments.length := (List.mem_enum hp).1
      have hiff := removed_at_iff_spec segments hpos i hi
      by_cases hsp : spec_removed segments i
      · rw [hiff.mpr hsp]
        simp [hsp]
      · have hfalse : removed_at segments i = false := by
          cases hb : removed_at segments i
          · rfl
          · exact absurd (hiff.mp hb) hsp
        rw [hfalse]
        simp [hsp]
  refine ⟨hmain, ?_⟩
  rw [hmain]
  have h1 : ((segments.enum.filter (fun p => decide (¬ spec_removed segments p.1))).map
      (fun p => p.2)).Sublist (segments.enum.map (fun p => p.2)) :=
    List.Sublist.map _ (List.filter_sublist segments.enum)
  have h2 : segments.enum.map (fun p => p.2) = segments := List.enum_map_snd segments
  rw [h2] at h1
  exact h1

/-- Witness for C3 at a concrete two-segment list: a parent box
[0,0,100,100] with one small child [30,30,70,70] (child fills 16% of the
parent, below 40%), so nothing is removed. -/
theorem containment_dedup_witness :
    (∀ s ∈ [Segment.mk ⟨0, 0, 100, 100⟩ (9 / 10) 10000,
            Segment.mk ⟨30, 30, 70, 70⟩ (8 / 10) 1600], 0 < s.box_pixels.area) ∧
    (remove_contained_duplicates
        [Segment.mk ⟨0, 0, 100, 100⟩ (9 / 10) 10000,
         Segment.mk ⟨30, 30, 70, 70⟩ (8 / 10) 1600] =
      ([Segment.mk ⟨0, 0, 100, 100⟩ (9 / 10) 10000,
        Segment.mk ⟨30, 30, 70, 70⟩ (8 / 10) 1600].enum.filter
          (fun p => decide (¬ spec_removed
            [Segment.mk ⟨0, 0, 100, 100⟩ (9 / 10) 10000,
             Segment.mk ⟨30, 30, 70, 70⟩ (8 / 10) 1600] p.1))).map (fun p => p.2) ∧
      (remove_contained_duplicates
        [Segment.mk ⟨0, 0, 100, 100⟩ (9 / 10) 10000,
         Segment.mk ⟨30, 30, 70, 70⟩ (8 / 10) 1600]).Sublist
        [Segment.mk ⟨0, 0, 100, 100⟩ (9 / 10) 10000,
         Segment.mk ⟨30, 30, 70, 70⟩ (8 / 10) 1600]) := by
  have hpos : ∀ s ∈ [Segment.mk ⟨0, 0, 100, 100⟩ (9 / 10) 10000,
      Segment.mk ⟨30, 30, 70, 70⟩ (8 / 10) 1600], 0 < s.box_pixels.area := by
    intro s hs
    rcases List.mem_cons.mp hs with rfl | hs
    · norm_num [Box.area]
    · rcases List.mem_cons.mp hs with rfl | hs
      · norm_num [Box.area]
      · exact absurd hs (List.not_mem_nil s)
  exact ⟨hpos, containment_dedup_characterization _ hpos⟩

/-- Claim C4: the Box Tightener maps each segment independently; a
segment whose int box has either dimension below 10 px passes through
unaltered; otherwise the box (and area) is replaced by the trimmed
rectangle exactly when the trimmed rectangle still has both dimensions
at least min_dimension (30) and aspect ratio at most max_aspect_ratio
(4.0), and is kept unchanged otherwise. -/
theorem box_tightener_characterization :
    (∀ (img : Img) (segments : List Segment),
      tighten_boxes segments img = segments.map (tighten_one img)) ∧
    (∀ (img : Img) (seg : Segment),
      (pyInt seg.box_pixels.x2 - pyInt seg.box_pixels.x1 < 10 ∨
       pyInt seg.box_pixels.y2 - pyInt seg.box_pixels.y1 < 10) →
      tighten_one img seg = seg) ∧
    (∀ (img : Img) (seg : Segment) (nx1 ny1 nx2 ny2 : ℤ),
      ¬(pyInt seg.box_pixels.x2 - pyInt seg.box_pixels.x1 < 10 ∨
        pyInt seg.box_pixels.y2 - pyInt seg.box_pixels.y1 < 10) →
      trimmed_coords img seg = (nx1, ny1, nx2, ny2) →
      (tightened_ok nx1 ny1 nx2 ny2 →
        tighten_one img seg =
          { seg with
            box_pixels := ⟨(nx1 : ℚ), (ny1 : ℚ), (nx2 : ℚ), (ny2 : ℚ)⟩,
            area_pixels := ((nx2 - nx1 : ℤ) : ℚ) * ((ny2 - ny1 : ℤ) : ℚ) }) ∧
      (¬ tightened_ok nx1 ny1 nx2 ny2 → tighten_one img seg = seg)) := by
  refine ⟨fun _ _ => rfl, ?_, ?_⟩
  · intro img seg hsmall
    unfold tighten_one
    rw [if_pos hsmall]
  · intro img seg nx1 ny1 nx2 ny2 hbig htrim
    constructor
    · intro hok
      unfold tighten_one
      rw [if_neg hbig, htrim]
      exact if_pos hok
    · intro hnot
      unfold tighten_one
      rw [if_neg hbig, htrim]
      exact if_neg hnot

/-- Witness for C4 at the constant-zero image and box [0,0,12,12]: the
maximum trim is int(12*0.15) = 1 and every probe passes (deviation 0),
so the trimmed rectangle is [1,1,11,11]; its 10-px dimensions fall below
min_dimension, so the segment is kept unchanged. -/
theorem box_tightener_witness :
    ¬(pyInt tightSegW.box_pixels.x2 - pyInt tightSegW.box_pixels.x1 < 10 ∨
      pyInt tightSegW.box_pixels.y2 - pyInt tightSegW.box_pixels.y1 < 10) ∧
    trimmed_coords imgZero tightSegW = (1, 1, 11, 11) ∧
    ¬ tightened_ok 1 1 11 11 ∧
    tighten_one imgZero tightSegW = tightSegW := by
  have hbig : ¬(pyInt tightSegW.box_pixels.x2 - pyInt tightSegW.box_pixels.x1 < 10 ∨
      pyInt tightSegW.box_pixels.y2 - pyInt tightSegW.box_pixels.y1 < 10) := by
    norm_num [tightSegW, pyInt]
  have htrim : trimmed_coords imgZero tightSegW = (1, 1, 11, 11) := by
    norm_num [trimmed_coords, tightSegW, imgZero, pyInt, tighten_margin, np_median,
      border_pixels, col_diff, row_diff, trim_len, tighten_bg_threshold,
      List.insertionSort, List.orderedInsert, List.range_succ, List.getD, List.takeWhile,
      (show Int.toNat 12 = 12 from rfl), List.getElem?_cons_zero, List.getElem?_cons_succ]
  have hnot : ¬ tightened_ok 1 1 11 11 := by
    norm_num [tightened_ok, min_dimension]
  exact ⟨hbig, htrim, hnot,
    (box_tightener_characterization.2.2 imgZero tightSegW 1 1 11 11 hbig htrim).2 hnot⟩

theorem digitChar_toNat : ∀ n, n < 10 → (digitChar n).toNat = 48 + n := by decide

theorem parseDigits_aux : ∀ (fuel n a : ℕ), n < fuel →
    List.foldl (fun a c => 10 * a + (c.toNat - 48)) a (natToDigitsAux fuel n) =
      a * 10 ^ (natToDigitsAux fuel n).length + n := by
  intro fuel
  induction fuel with
  | zero => intro n a h; omega
  | succ fuel ih =>
    intro n a h
    by_cases h10 : n < 10
    · rw [natToDigitsAux, if_pos h10]
      simp only [List.foldl_cons, List.foldl_nil, List.length_cons, List.length_nil]
      rw [digitChar_toNat n h10]
      simp only [Nat.zero_add, pow_one]
      omega
    · have hdiv : n / 10 < fuel := by
        have h1 : n / 10 < n := Nat.div_lt_self (by omega) (by omega)
        omega
      rw [natToDigitsAux, if_neg h10]
      rw [List.foldl_append, ih (n / 10) a hdiv]
      simp only [List.foldl_cons, List.foldl_nil, List.length_append, List.length_cons,
        List.length_nil]
      rw [digitChar_toNat (n % 10) (Nat.mod_lt n (by omega))]
      have hmod : 10 * (n / 10) + n % 10 = n := Nat.div_add_mod n 10
      rw [pow_succ]
      ring_nf
      omega

theorem parseDigits_natToDigits (n : ℕ) : parseDigits (natToDigits n) = n := by
  unfold parseDigits natToDigits
  rw [parseDigits_aux (n + 1) n 0 (Nat.lt_succ_self n)]
  simp

theorem natToDigits_injective : Function.Injective natToDigits := by
  intro m n h
  have hm := parseDigits_natToDigits m
  rw [h, parseDigits_natToDigits] at hm
  exact hm.symm

theorem compId_injective : Function.Injective compId := by
  intro m n h
  exact natToDigits_injective (List.append_cancel_left h)

theorem remove_background_sublist (segments : List Segment) (img_area : ℚ) :
    (remove_background segments img_area).Sublist segments := by
  simp only [remove_background]
  split
  · exact List.Sublist.refl segments
  · have h1 : ((segments.enum.filter
        (fun p => !is_background_at segments img_area p.1)).map (fun p => p.2)).Sublist
        (segments.enum.map (fun p => p.2)) :=
      List.Sublist.map _ (List.filter_sublist segments.enum)
    rw [List.enum_map_snd] at h1
    exact h1

/-- Counterexample to claim C8 as stated: both disjoint segments survive
the Overlap Resolver, yet component_0 is assigned to the second detector
segment (confidence 9/10) because _remove_overlaps sorts by descending
confidence before ids are assigned; the i-th id does not follow the
original detector order. -/
theorem component_order_counterexample :
    (normalize_components (remove_overlaps [detSegFirst, detSegSecond] 250000) 500 500).map
      (fun c => (c.id, c.confidence)) = [(compId 0, 9 / 10), (compId 1, 1 / 2)] ∧
    detSegFirst.confidence = 1 / 2 ∧ detSegSecond.confidence = 9 / 10 := by
  refine ⟨?_, rfl, rfl⟩
  norm_num [remove_overlaps, sort_by_confidence, List.insertionSort, List.orderedInsert,
    remove_background, is_background_at, containsBox, encloses, Box.area,
    container_min_area_frac, container_min_children, nms_pass, nms_step, nms_keep_against,
    calculate_iou, is_nested, iou_threshold, nesting_size_frac, max_def, min_def,
    normalize_components, List.enum, List.enumFrom, detSegFirst, detSegSecond]

/-- Claim C8 amended: component ids are unique within one extraction
call, component_i is assigned to the i-th surviving segment of the list
the Normalizer receives, and that list is ordered by descending
confidence (the stable sort of the Overlap Resolver), not by original
detector order. -/
theorem component_ids_amended :
    (∀ (segments : List Segment) (img_width img_height : ℚ),
      ((normalize_components segments img_width img_height).map (fun c => c.id)).Nodup) ∧
    (∀ (segments : List Segment) (img_width img_height : ℚ) (i : ℕ),
      i < segments.length →
      ((normalize_components segments img_width img_height).getD i default).id = compId i ∧
      ((normalize_components segments img_width img_height).getD i default).confidence =
        (segments.getD i default).confidence) ∧
    (∀ (segments : List Segment) (img_area : ℚ),
      (remove_overlaps segments img_area).Pairwise
        (fun a b => b.confidence ≤ a.confidence)) := by
  refine ⟨?_, ?_, ?_⟩
  · intro segments img_width img_height
    have h1 : (normalize_components segments img_width img_height).map (fun c => c.id) =
        segments.enum.map (fun p => compId p.1) := by
      unfold normalize_components
      rw [List.map_map]
      rfl
    have h2 : segments.enum.map (fun p => compId p.1) =
        (segments.enum.map Prod.fst).map compId := by
      rw [List.map_map]
      rfl
    rw [h1, h2, List.enum_map_fst]
    exact (List.nodup_range segments.length).map compId_injective
  · intro segments img_width img_height i hi
    have hlen : (normalize_components segments img_width img_height).length =
        segments.length := by
      unfold normalize_components
      rw [List.length_map, List.enum_length]
    have hi2 : i < (normalize_components segments img_width img_height).length := by
      rw [hlen]
      exact hi
    rw [List.getD_eq_getElem _ default hi2]
    unfold normalize_components
    rw [List.getElem_map, List.getElem_enum]
    exact ⟨rfl, by rw [List.getD_eq_getElem segments default hi]⟩
  · intro segments img_area
    unfold remove_overlaps
    split
    · exact List.Pairwise.nil
    · letI : IsTotal Segment (fun a b => b.confidence ≤ a.confidence) :=
        ⟨fun a b => le_total b.confidence a.confidence⟩
      letI : IsTrans Segment (fun a b => b.confidence ≤ a.confidence) :=
        ⟨fun a b c hab hbc => le_trans hbc hab⟩
      have hsorted : (sort_by_confidence segments).Pairwise
          (fun a b => b.confidence ≤ a.confidence) :=
        List.sorted_insertionSort _ segments
      have hbg : (remove_background (sort_by_confidence segments) img_area).Pairwise
          (fun a b => b.confidence ≤ a.confidence) :=
        List.Pairwise.sublist (remove_background_sublist _ img_area) hsorted
      have hnms := nms_foldl_sublist
        (remove_background (sort_by_confidence segments) img_area) []
      rw [List.nil_append] at hnms
      exact List.Pairwise.sublist hnms hbg

/-- Witness for the amended C8 at the concrete two-segment list, index 1. -/
theorem component_ids_amended_witness :
    1 < ([detSegFirst, detSegSecond] : List Segment).length ∧
    ((normalize_components [detSegFirst, detSegSecond] 500 500).getD 1 default).id =
      compId 1 ∧
    ((normalize_components [detSegFirst, detSegSecond] 500 500).getD 1 default).confidence =
      (([detSegFirst, detSegSecond] : List Segment).getD 1 default).confidence :=
  ⟨by norm_num,
   (component_ids_amended.2.1 [detSegFirst, detSegSecond] 500 500 1 (by norm_num)).1,
   (component_ids_amended.2.1 [detSegFirst, detSegSecond] 500 500 1 (by norm_num)).2⟩

/-- Claim C10: the Visual Complexity Filter fails open: a raised
measurement makes the corresponding test return true, so a segment whose
crop cannot be analyzed is always kept. -/
theorem visual_complexity_fails_open :
    has_sufficient_color_variance none = true ∧
    has_sufficient_edges none = true ∧
    (∀ (segments : List Segment) (img_area : ℚ)
        (varianceOf edgeDensityOf : Segment → Option ℚ) (seg : Segment),
      seg ∈ segments →
      (varianceOf seg = none ∨ edgeDensityOf seg = none) →
      seg ∈ filter_by_visual_complexity segments img_area varianceOf edgeDensityOf) := by
  refine ⟨rfl, rfl, ?_⟩
  intro segments img_area varianceOf edgeDensityOf seg hmem hexc
  unfold filter_by_visual_complexity
  rw [List.mem_filter]
  refine ⟨hmem, ?_⟩
  split
  · rfl
  · rcases hexc with h | h
    · rw [h]
      rfl
    · rw [h]
      simp [has_sufficient_edges]

/-- Witness for C10: a 1%-of-image segment whose variance measurement
raises is kept by the filter. -/
theorem visual_complexity_fails_open_witness :
    vcSegW ∈ [vcSegW] ∧
    ((fun _ : Segment => (none : Option ℚ)) vcSegW = none ∨
      (fun _ : Segment => some (0 : ℚ)) vcSegW = none) ∧
    vcSegW ∈ filter_by_visual_complexity [vcSegW] 1000000
      (fun _ => none) (fun _ => some 0) :=
  ⟨List.mem_singleton_self vcSegW, Or.inl rfl,
   visual_complexity_fails_open.2.2 [vcSegW] 1000000 (fun _ => none) (fun _ => some 0)
     vcSegW (List.mem_singleton_self vcSegW) (Or.inl rfl)⟩

theorem pairsFrom_mem (l : List Component) (a b : Component) :
    (a, b) ∈ pairsFrom l ↔ ∃ i j, i < j ∧ j < l.length ∧
      a = l.getD i default ∧ b = l.getD j default := by
  induction l with
  | nil =>
    simp only [pairsFrom, List.not_mem_nil, List.length_nil, false_iff]
    rintro ⟨i, j, hij, hj, -⟩
    omega
  | cons c rest ih =>
    simp only [pairsFrom, List.mem_append, List.mem_map, Prod.mk.injEq]
    constructor
    · rintro (⟨d, hd, rfl, rfl⟩ | hmem)
      · obtain ⟨j, hj, hdj⟩ := List.mem_iff_getElem.mp hd
        refine ⟨0, j + 1, Nat.succ_pos j, by simpa using hj, rfl, ?_⟩
        rw [List.getD_cons_succ, List.getD_eq_getElem rest default hj, hdj]
      · obtain ⟨i, j, hij, hj, ha, hb⟩ := ih.mp hmem
        exact ⟨i + 1, j + 1, by omega, by simpa using hj,
          by rw [List.getD_cons_succ]; exact ha, by rw [List.getD_cons_succ]; exact hb⟩
    · rintro ⟨i, j, hij, hj, ha, hb⟩
      match i with
      | 0 =>
        left
        obtain ⟨j2, rfl⟩ : ∃ j2, j = j2 + 1 := ⟨j - 1, by omega⟩
        have hj2 : j2 < rest.length := by simpa using hj
        refine ⟨rest.getD j2 default, ?_, ?_, ?_⟩
        · rw [List.getD_eq_getElem rest default hj2]
          exact List.getElem_mem hj2
        · rw [ha, List.getD_cons_zero]
        · rw [hb, List.getD_cons_succ]
      | i2 + 1 =>
        right
        obtain ⟨j2, rfl⟩ : ∃ j2, j = j2 + 1 := ⟨j - 1, by omega⟩
        refine ih.mpr ⟨i2, j2, by omega, by simpa using hj, ?_, ?_⟩
        · rw [ha, List.getD_cons_succ]
        · rw [hb, List.getD_cons_succ]

theorem pairsFrom_twice_length (l : List Component) :
    2 * (pairsFrom l).length = l.length * (l.length - 1) := by
  induction l with
  | nil => rfl
  | cons c rest ih =>
    simp only [pairsFrom, List.length_append, List.length_map, List.length_cons]
    have hexp : (rest.length + 1) * (rest.length + 1 - 1) =
        rest.length * (rest.length - 1) + 2 * rest.length := by
      cases rest with
      | nil => rfl
      | cons d t =>
        simp only [List.length_cons, Nat.add_sub_cancel]
        ring
    rw [hexp]
    omega

theorem filterMap_if_eq_filter_map (l : List (Component × Component)) :
    (l.filterMap (fun p =>
      if distance_sq p.1 p.2 < proximity_threshold ^ 2 then
        some (Connection.mk p.1.id p.2.id (distance_sq p.1 p.2))
      else none)) =
    (l.filter (fun p => decide (distance_sq p.1 p.2 < proximity_threshold ^ 2))).map
      (fun p => Connection.mk p.1.id p.2.id (distance_sq p.1 p.2)) := by
  induction l with
  | nil => rfl
  | cons p rest ih =>
    by_cases h : distance_sq p.1 p.2 < proximity_threshold ^ 2
    · rw [List.filterMap_cons, if_pos h, List.filter_cons, if_pos (decide_eq_true h),
        List.map_cons, ih]
    · rw [List.filterMap_cons, if_neg h, List.filter_cons,
        if_neg (by rw [decide_eq_true_eq]; exact h), ih]

theorem analyze_mem_characterization (components : List Component) (conn : Connection) :
    conn ∈ analyze_component_relationships components ↔
      (2 ≤ components.length ∧ ∃ i j, i < j ∧ j < components.length ∧
        distance_sq (components.getD i default) (components.getD j default) <
          proximity_threshold ^ 2 ∧
        conn = ⟨(components.getD i default).id, (components.getD j default).id,
          distance_sq (components.getD i default) (components.getD j default)⟩) := by
  by_cases hlen : components.length < 2
  · rw [analyze_component_relationships, if_pos hlen]
    exact iff_of_false (List.not_mem_nil conn) (fun h => by omega)
  · rw [analyze_component_relationships, if_neg hlen, List.mem_filterMap]
    constructor
    · rintro ⟨p, hp, hf⟩
      split at hf
      · rename_i hdist
        obtain ⟨i, j, hij, hj, ha, hb⟩ := (pairsFrom_mem components p.1 p.2).mp hp
        refine ⟨by omega, i, j, hij, hj, ?_, ?_⟩
        · rw [← ha, ← hb]
          exact hdist
        · rw [← ha, ← hb]
          exact (Option.some.inj hf).symm
      · exact absurd hf (by simp)
    · rintro ⟨-, i, j, hij, hj, hdist, hconn⟩
      refine ⟨(components.getD i default, components.getD j default), ?_, ?_⟩
      · exact (pairsFrom_mem components _ _).mpr ⟨i, j, hij, hj, rfl, rfl⟩
      · rw [if_pos hdist, hconn]

theorem id_getD_inj (components : List Component)
    (hnodup : (components.map (fun c => c.id)).Nodup) (i j : ℕ)
    (hi : i < components.length) (hj : j < components.length)
    (hid : (components.getD i default).id = (components.getD j default).id) : i = j := by
  have hinj := List.nodup_iff_injective_get.mp hnodup
  have hmi : i < (components.map (fun c => c.id)).length := by
    rw [List.length_map]; exact hi
  have hmj : j < (components.map (fun c => c.id)).length := by
    rw [List.length_map]; exact hj
  have hgi : (components.map (fun c => c.id)).get ⟨i, hmi⟩ = (components.getD i default).id := by
    rw [List.get_eq_getElem, List.getElem_map, List.getD_eq_getElem components default hi]
  have hgj : (components.map (fun c => c.id)).get ⟨j, hmj⟩ = (components.getD j default).id := by
    rw [List.get_eq_getElem, List.getElem_map, List.getD_eq_getElem components default hj]
  have heq : (⟨i, hmi⟩ : Fin (components.map (fun c => c.id)).length) = ⟨j, hmj⟩ :=
    hinj (by rw [hgi, hgj, hid])
  exact congrArg Fin.val heq

/-- Claim C9: the Relationship Analyzer returns no connections for fewer
than 2 components; a connection exists exactly for the i < j pairs whose
squared normalized center distance is below the squared proximity
threshold; the connection count equals the number of enumerated pairs
under the threshold, and the enumeration lists each unordered pair
exactly once (2*|pairs| = n*(n-1)); emitted squared distances are
nonnegative (so the emitted sqrt distances are too); with distinct ids
the reversed pair of an emitted connection is never emitted; and for
nonnegative q, sqrt q < threshold iff q < threshold squared, so the
squared comparison used here agrees with the sqrt comparison of the source. -/
theorem relationship_analyzer_characterization :
    (∀ components : List Component, components.length < 2 →
      analyze_component_relationships components = []) ∧
    (∀ (components : List Component) (conn : Connection),
      conn ∈ analyze_component_relationships components ↔
        (2 ≤ components.length ∧ ∃ i j, i < j ∧ j < components.length ∧
          distance_sq (components.getD i default) (components.getD j default) <
            proximity_threshold ^ 2 ∧
          conn = ⟨(components.getD i default).id, (components.getD j default).id,
            distance_sq (components.getD i default) (components.getD j default)⟩)) ∧
    (∀ components : List Component, 2 ≤ components.length →
      (analyze_component_relationships components).length =
        ((pairsFrom components).filter (fun p =>
          decide (distance_sq p.1 p.2 < proximity_threshold ^ 2))).length) ∧
    (∀ components : List Component,
      2 * (pairsFrom components).length = components.length * (components.length - 1)) ∧
    (∀ (components : List Component) (conn : Connection),
      conn ∈ analyze_component_relationships components → 0 ≤ conn.dist_sq) ∧
    (∀ components : List Component,
      (components.map (fun c => c.id)).Nodup →
      ∀ conn ∈ analyze_component_relationships components,
      ∀ conn2 ∈ analyze_component_relationships components,
        ¬(conn.frm = conn2.tgt ∧ conn.tgt = conn2.frm)) ∧
    (∀ q : ℚ, Real.sqrt (q : ℝ) < ((proximity_threshold : ℚ) : ℝ) ↔
      (q : ℝ) < ((proximity_threshold : ℚ) : ℝ) ^ 2) := by
  refine ⟨?_, analyze_mem_characterization, ?_, pairsFrom_twice_length, ?_, ?_, ?_⟩
  · intro components h
    rw [analyze_component_relationships, if_pos h]
  · intro components hlen
    rw [analyze_component_relationships, if_neg (by omega), filterMap_if_eq_filter_map,
      List.length_map]
  · intro components conn hmem
    obtain ⟨-, i, j, -, -, -, hconn⟩ :=
      (analyze_mem_characterization components conn).mp hmem
    rw [hconn]
    unfold distance_sq
    positivity
  · intro components hnodup conn hc conn2 hc2 hboth
    obtain ⟨-, i, j, hij, hj, -, hconn⟩ :=
      (analyze_mem_characterization components conn).mp hc
    obtain ⟨-, i2, j2, hij2, hj2, -, hconn2⟩ :=
      (analyze_mem_characterization components conn2).mp hc2
    have h1 : (components.getD i default).id = (components.getD j2 default).id := by
      have := hboth.1
      rw [hconn, hconn2] at this
      exact this
    have h2 : (components.getD j default).id = (components.getD i2 default).id := by
      have := hboth.2
      rw [hconn, hconn2] at this
      exact this
    have hi : i < components.length := lt_trans hij hj
    have hi2 : i2 < components.length := lt_trans hij2 hj2
    have e1 : i = j2 := id_getD_inj components hnodup i j2 hi hj2 h1
    have e2 : j = i2 := id_getD_inj components hnodup j i2 hj hi2 h2
    omega
  · intro q
    exact Real.sqrt_lt' (by norm_num [proximity_threshold])

/-- Witness for C9: the empty list yields no connections; at the
concrete close pair the count equals the number of pairs under the
threshold; with the distinct concrete ids no reversed pair is emitted. -/
theorem relationship_analyzer_witness :
    (([] : List Component).length < 2 ∧ analyze_component_relationships [] = []) ∧
    (2 ≤ ([relCompA, relCompB] : List Component).length ∧
      (analyze_component_relationships [relCompA, relCompB]).length =
        ((pairsFrom [relCompA, relCompB]).filter (fun p =>
          decide (distance_sq p.1 p.2 < proximity_threshold ^ 2))).length) ∧
    (([relCompA, relCompB].map (fun c => c.id)).Nodup ∧
      ∀ conn ∈ analyze_component_relationships [relCompA, relCompB],
      ∀ conn2 ∈ analyze_component_relationships [relCompA, relCompB],
        ¬(conn.frm = conn2.tgt ∧ conn.tgt = conn2.frm)) := by
  have hnodup : ([relCompA, relCompB].map (fun c => c.id)).Nodup := by
    rw [List.map_cons, List.map_cons, List.map_nil]
    refine List.nodup_cons.mpr ⟨?_, List.nodup_singleton _⟩
    rw [List.mem_singleton]
    show ¬ relCompA.id = relCompB.id
    rw [show relCompA.id = compId 0 from rfl, show relCompB.id = compId 1 from rfl]
    decide
  exact ⟨⟨by norm_num, relationship_analyzer_characterization.1 [] (by norm_num)⟩,
    ⟨by norm_num,
      relationship_analyzer_characterization.2.2.1 [relCompA, relCompB] (by norm_num)⟩,
    ⟨hnodup,
      relationship_analyzer_characterization.2.2.2.2.2.1 [relCompA, relCompB] hnodup⟩⟩

theorem dedupStep_eq (seen : List (List Char × Component)) (comp : Component) :
    dedupStep seen comp =
      if keyedById comp then dictInsert comp.id comp seen
      else
        match dictFind (cleanedLabel comp) seen with
        | none => dictInsert (cleanedLabel comp) comp seen
        | some existing =>
          if existing.confidence < comp.confidence then
            dictInsert (cleanedLabel comp) comp seen
          else seen := by
  unfold dedupStep keyedById
  cases hb1 : decide (cleanedLabel comp = []) <;>
    cases hb2 : startsWithL (pyStr "component") (cleanedLabel comp) <;>
    cases hb3 : decide (cleanedLabel comp = pyStr "unknown") <;>
    cases hb4 : decide (cleanedLabel comp = pyStr "unlabeled") <;>
    simp

theorem startsWithL_ne {pre a b : List Char} (ha : startsWithL pre a = true)
    (hb : startsWithL pre b = false) : a ≠ b := by
  intro h
  rw [h, hb] at ha
  exact Bool.false_ne_true ha

theorem keyed_false_label_not_component {comp : Component}
    (h : keyedById comp = false) :
    startsWithL (pyStr "component") (cleanedLabel comp) = false := by
  unfold keyedById at h
  cases hb : startsWithL (pyStr "component") (cleanedLabel comp)
  · rfl
  · rw [hb] at h
    simp at h

theorem dictFind_eq_none_iff (k : List Char) (l : List (List Char × Component)) :
    dictFind k l = none ↔ ∀ e ∈ l, e.1 ≠ k := by
  induction l with
  | nil => simp [dictFind]
  | cons e rest ih =>
    obtain ⟨k2, v⟩ := e
    rw [dictFind]
    by_cases h : k2 = k
    · rw [if_pos h]
      refine iff_of_false (by simp) ?_
      intro hall
      exact hall (k2, v) (List.mem_cons_self _ _) h
    · rw [if_neg h, ih]
      constructor
      · intro hall e he
        rcases List.mem_cons.mp he with rfl | he2
        · exact h
        · exact hall e he2
      · intro hall e he
        exact hall e (List.mem_cons_of_mem _ he)

theorem dictInsert_of_forall_ne (k : List Char) (v : Component)
    (l : List (List Char × Component)) (h : ∀ e ∈ l, e.1 ≠ k) :
    dictInsert k v l = l ++ [(k, v)] := by
  induction l with
  | nil => rfl
  | cons e rest ih =>
    obtain ⟨k2, v2⟩ := e
    rw [dictInsert, if_neg (h (k2, v2) (List.mem_cons_self _ _)), List.cons_append,
      ih (fun e he => h e (List.mem_cons_of_mem _ he))]

theorem dictFind_eq_some_iff (k : List Char) (v : Component) :
    ∀ l : List (List Char × Component), (l.map (fun e => e.1)).Nodup →
      (dictFind k l = some v ↔ (k, v) ∈ l) := by
  intro l
  induction l with
  | nil => intro _; simp [dictFind]
  | cons e rest ih =>
    obtain ⟨k2, v2⟩ := e
    intro hnd
    rw [List.map_cons, List.nodup_cons] at hnd
    rw [dictFind]
    by_cases h : k2 = k
    · subst h
      rw [if_pos rfl]
      constructor
      · intro hsome
        rw [show v2 = v from Option.some.inj hsome]
        exact List.mem_cons_self _ _
      · intro hmem
        rcases List.mem_cons.mp hmem with heq | hmem2
        · rw [Prod.mk.injEq] at heq
          rw [heq.2]
        · exact absurd (List.mem_map.mpr ⟨(k2, v), hmem2, rfl⟩) hnd.1
    · rw [if_neg h, ih hnd.2]
      constructor
      · exact fun hm => List.mem_cons_of_mem _ hm
      · intro hm
        rcases List.mem_cons.mp hm with heq | hm2
        · rw [Prod.mk.injEq] at heq
          exact absurd heq.1.symm h
        · exact hm2

theorem mem_keys_dictInsert (k a : List Char) (v : Component) :
    ∀ l : List (List Char × Component),
      a ∈ (dictInsert k v l).map (fun e => e.1) → a ∈ l.map (fun e => e.1) ∨ a = k := by
  intro l
  induction l with
  | nil =>
    intro h
    simp [dictInsert] at h
    exact Or.inr h
  | cons e rest ih =>
    obtain ⟨k2, v2⟩ := e
    rw [dictInsert]
    by_cases h : k2 = k
    · rw [if_pos h]
      intro hmem
      rw [List.map_cons] at hmem ⊢
      rcases List.mem_cons.mp hmem with rfl | hm
      · exact Or.inr rfl
      · exact Or.inl (List.mem_cons_of_mem _ hm)
    · rw [if_neg h]
      intro hmem
      rw [List.map_cons] at hmem ⊢
      rcases List.mem_cons.mp hmem with rfl | hm
      · exact Or.inl (List.mem_cons_self _ _)
      · rcases ih hm with h1 | h2
        · exact Or.inl (List.mem_cons_of_mem _ h1)
        · exact Or.inr h2

theorem keys_nodup_dictInsert (k : List Char) (v : Component) :
    ∀ l : List (List Char × Component), (l.map (fun e => e.1)).Nodup →
      ((dictInsert k v l).map (fun e => e.1)).Nodup := by
  intro l
  induction l with
  | nil => intro _; simp [dictInsert]
  | cons e rest ih =>
    obtain ⟨k2, v2⟩ := e
    intro hnd
    rw [List.map_cons, List.nodup_cons] at hnd
    rw [dictInsert]
    by_cases h : k2 = k
    · rw [if_pos h, List.map_cons, List.nodup_cons]
      exact ⟨h ▸ hnd.1, hnd.2⟩
    · rw [if_neg h, List.map_cons, List.nodup_cons]
      refine ⟨?_, ih hnd.2⟩
      intro hmem
      rcases mem_keys_dictInsert k k2 v rest hmem with h1 | h2
      · exact hnd.1 h1
      · exact h h2

theorem mem_dictInsert (k : List Char) (v : Component) :
    ∀ l : List (List Char × Component), (l.map (fun e => e.1)).Nodup →
      ∀ e : List Char × Component,
        (e ∈ dictInsert k v l ↔ e = (k, v) ∨ (e ∈ l ∧ e.1 ≠ k)) := by
  intro l
  induction l with
  | nil => intro _ e; simp [dictInsert]
  | cons ent rest ih =>
    obtain ⟨k2, v2⟩ := ent
    intro hnd e
    rw [List.map_cons, List.nodup_cons] at hnd
    rw [dictInsert]
    by_cases h : k2 = k
    · subst h
      rw [if_pos rfl]
      constructor
      · intro hm
        rcases List.mem_cons.mp hm with rfl | hm2
        · exact Or.inl rfl
        · refine Or.inr ⟨List.mem_cons_of_mem _ hm2, ?_⟩
          intro hek
          exact hnd.1 (List.mem_map.mpr ⟨e, hm2, hek⟩)
      · rintro (rfl | ⟨hm, hne⟩)
        · exact List.mem_cons_self _ _
        · rcases List.mem_cons.mp hm with rfl | hm2
          · exact absurd rfl hne
          · exact List.mem_cons_of_mem _ hm2
    · rw [if_neg h]
      constructor
      · intro hm
        rcases List.mem_cons.mp hm with rfl | hm2
        · exact Or.inr ⟨List.mem_cons_self _ _, h⟩
        · rcases (ih hnd.2 e).mp hm2 with h1 | ⟨h2, h3⟩
          · exact Or.inl h1
          · exact Or.inr ⟨List.mem_cons_of_mem _ h2, h3⟩
      · rintro (rfl | ⟨hm, hne⟩)
        · exact List.mem_cons_of_mem _ ((ih hnd.2 (k, v)).mpr (Or.inl rfl))
        · rcases List.mem_cons.mp hm with rfl | hm2
          · exact List.mem_cons_self _ _
          · exact List.mem_cons_of_mem _ ((ih hnd.2 e).mpr (Or.inr ⟨hm2, hne⟩))

theorem entry_value_unique (k : List Char) (v1 v2 : Component)
    (l : List (List Char × Component)) (hnd : (l.map (fun e => e.1)).Nodup)
    (h1 : (k, v1) ∈ l) (h2 : (k, v2) ∈ l) : v1 = v2 := by
  have e1 := (dictFind_eq_some_iff k v1 l hnd).mpr h1
  have e2 := (dictFind_eq_some_iff k v2 l hnd).mpr h2
  rw [e1] at e2
  exact Option.some.inj e2

theorem dedupStep_inv (p : List Component) (seen : List (List Char × Component))
    (comp : Component) (hinv : SeenInv p seen)
    (hcpre : startsWithL (pyStr "component") comp.id = true)
    (hppre : ∀ d ∈ p, startsWithL (pyStr "component") d.id = true)
    (hdistinct : ∀ d ∈ p, d.id ≠ comp.id) :
    SeenInv (p ++ [comp]) (dedupStep seen comp) := by
  obtain ⟨hval, hkeys, hkeyed, hlabeled⟩ := hinv
  have hid_fresh : ∀ e ∈ seen, e.1 ≠ comp.id := by
    intro e he
    cases hke : keyedById e.2 with
    | false =>
      have hlab : startsWithL (pyStr "component") e.1 = false := by
        rw [(hval e he).2, entryKey, if_neg (by rw [hke]; simp)]
        exact keyed_false_label_not_component hke
      exact (startsWithL_ne hcpre hlab).symm
    | true =>
      rw [(hval e he).2, entryKey, if_pos hke]
      exact hdistinct e.2 (hval e he).1
  by_cases hk : keyedById comp = true
  · rw [dedupStep_eq, if_pos hk, dictInsert_of_forall_ne _ _ _ hid_fresh]
    refine ⟨?_, ?_, ?_, ?_⟩
    · intro e he
      rcases List.mem_append.mp he with h1 | h2
      · exact ⟨List.mem_append_left _ (hval e h1).1, (hval e h1).2⟩
      · rw [List.mem_singleton.mp h2]
        exact ⟨List.mem_append_right _ (List.mem_singleton_self _),
          by rw [entryKey, if_pos hk]⟩
    · rw [List.map_append, List.nodup_append]
      refine ⟨hkeys, by simp, ?_⟩
      intro a ha
      obtain ⟨e, he, rfl⟩ := List.mem_map.mp ha
      simp only [List.map_cons, List.map_nil, List.mem_singleton]
      exact hid_fresh e he
    · intro c hc hkc
      rcases List.mem_append.mp hc with h1 | h2
      · exact List.mem_append_left _ (hkeyed c h1 hkc)
      · rw [List.mem_singleton.mp h2]
        exact List.mem_append_right _ (List.mem_singleton_self _)
    · intro c hc hkc
      rcases List.mem_append.mp hc with h1 | h2
      · obtain ⟨v, hv, hprops⟩ := hlabeled c h1 hkc
        exact ⟨v, List.mem_append_left _ hv, hprops⟩
      · rw [List.mem_singleton.mp h2] at hkc
        rw [hkc] at hk
        exact absurd hk Bool.false_ne_true
  · have hkf : keyedById comp = false := by
      cases h : keyedById comp
      · rfl
      · exact absurd h hk
    have hlabne : startsWithL (pyStr "component") (cleanedLabel comp) = false :=
      keyed_false_label_not_component hkf
    rw [dedupStep_eq, if_neg hk]
    cases hfind : dictFind (cleanedLabel comp) seen with
    | none =>
      simp only [hfind]
      have hfresh : ∀ e ∈ seen, e.1 ≠ cleanedLabel comp :=
        (dictFind_eq_none_iff _ _).mp hfind
      rw [dictInsert_of_forall_ne _ _ _ hfresh]
      refine ⟨?_, ?_, ?_, ?_⟩
      · intro e he
        rcases List.mem_append.mp he with h1 | h2
        · exact ⟨List.mem_append_left _ (hval e h1).1, (hval e h1).2⟩
        · rw [List.mem_singleton.mp h2]
          exact ⟨List.mem_append_right _ (List.mem_singleton_self _),
            by rw [entryKey, if_neg hk]⟩
      · rw [List.map_append, List.nodup_append]
        refine ⟨hkeys, by simp, ?_⟩
        intro a ha
        obtain ⟨e, he, rfl⟩ := List.mem_map.mp ha
        simp only [List.map_cons, List.map_nil, List.mem_singleton]
        exact hfresh e he
      · intro c hc hkc
        rcases List.mem_append.mp hc with h1 | h2
        · exact List.mem_append_left _ (hkeyed c h1 hkc)
        · rw [List.mem_singleton.mp h2] at hkc
          rw [hkf] at hkc
          exact absurd hkc (by simp)
      · intro c hc hkc
        rcases List.mem_append.mp hc with h1 | h2
        · obtain ⟨v, hv, hprops⟩ := hlabeled c h1 hkc
          exact ⟨v, List.mem_append_left _ hv, hprops⟩
        · rw [List.mem_singleton.mp h2]
          exact ⟨comp, List.mem_append_right _ (List.mem_singleton_self _), hkf, rfl,
            le_refl _⟩
    | some existing =>
      simp only [hfind]
      have hmem_ex : (cleanedLabel comp, existing) ∈ seen :=
        (dictFind_eq_some_iff _ _ seen hkeys).mp hfind
      have hex_val := hval _ hmem_ex
      have hex_keyed : keyedById existing = false := by
        cases hke : keyedById existing
        · rfl
        · exfalso
          have hlabeq : cleanedLabel comp = existing.id := by
            have h2 := hex_val.2
            rw [entryKey, if_pos hke] at h2
            exact h2
          exact (startsWithL_ne (hppre existing hex_val.1) hlabne) hlabeq.symm
      have hex_label : cleanedLabel existing = cleanedLabel comp := by
        have h2 := hex_val.2
        rw [entryKey, if_neg (by rw [hex_keyed]; simp)] at h2
        exact h2.symm
      by_cases hcmp : existing.confidence < comp.confidence
      · rw [if_pos hcmp]
        refine ⟨?_, keys_nodup_dictInsert _ _ seen hkeys, ?_, ?_⟩
        · intro e he
          rcases (mem_dictInsert _ _ seen hkeys e).mp he with rfl | ⟨hmem, -⟩
          · exact ⟨List.mem_append_right _ (List.mem_singleton_self _),
              by rw [entryKey, if_neg hk]⟩
          · exact ⟨List.mem_append_left _ (hval e hmem).1, (hval e hmem).2⟩
        · intro c hc hkc
          rcases List.mem_append.mp hc with h1 | h2
          · exact (mem_dictInsert _ _ seen hkeys _).mpr
              (Or.inr ⟨hkeyed c h1 hkc, startsWithL_ne (hppre c h1) hlabne⟩)
          · rw [List.mem_singleton.mp h2] at hkc
            rw [hkf] at hkc
            exact absurd hkc (by simp)
        · intro c hc hkc
          rcases List.mem_append.mp hc with h1 | h2
          · obtain ⟨v, hv, hvk, hvl, hvc⟩ := hlabeled c h1 hkc
            by_cases hlab : cleanedLabel c = cleanedLabel comp
            · have hveq : v = existing := by
                refine entry_value_unique (cleanedLabel comp) v existing seen hkeys ?_ hmem_ex
                rw [← hlab]
                exact hv
              refine ⟨comp, (mem_dictInsert _ _ seen hkeys _).mpr
                (Or.inl (by rw [hlab])), hkf, by rw [hlab], ?_⟩
              calc c.confidence ≤ v.confidence := hvc
                _ = existing.confidence := by rw [hveq]
                _ ≤ comp.confidence := le_of_lt hcmp
            · exact ⟨v, (mem_dictInsert _ _ seen hkeys _).mpr (Or.inr ⟨hv, hlab⟩),
                hvk, hvl, hvc⟩
          · rw [List.mem_singleton.mp h2]
            exact ⟨comp, (mem_dictInsert _ _ seen hkeys _).mpr (Or.inl rfl), hkf, rfl,
              le_refl _⟩
      · rw [if_neg hcmp]
        refine ⟨?_, hkeys, ?_, ?_⟩
        · intro e he
          exact ⟨List.mem_append_left _ (hval e he).1, (hval e he).2⟩
        · intro c hc hkc
          rcases List.mem_append.mp hc with h1 | h2
          · exact hkeyed c h1 hkc
          · rw [List.mem_singleton.mp h2] at hkc
            rw [hkf] at hkc
            exact absurd hkc (by simp)
        · intro c hc hkc
          rcases List.mem_append.mp hc with h1 | h2
          · exact hlabeled c h1 hkc
          · rw [List.mem_singleton.mp h2]
            exact ⟨existing, hmem_ex, hex_keyed, hex_label, not_lt.mp hcmp⟩

theorem dedup_foldl_inv :
    ∀ (rest p : List Component) (seen : List (List Char × Component)),
      (∀ d ∈ p ++ rest, startsWithL (pyStr "component") d.id = true) →
      (((p ++ rest).map (fun c => c.id)).Nodup) →
      SeenInv p seen →
      SeenInv (p ++ rest) (rest.foldl dedupStep seen) := by
  intro rest
  induction rest with
  | nil =>
    intro p seen hpre hnd hinv
    simpa using hinv
  | cons c cs ih =>
    intro p seen hpre hnd hinv
    have hdist : ∀ d ∈ p, d.id ≠ c.id := by
      intro d hd heq
      have h1 : ((p ++ c :: cs).map (fun x => x.id)).Nodup := hnd
      rw [List.map_append, List.nodup_append] at h1
      refine h1.2.2 (List.mem_map.mpr ⟨d, hd, rfl⟩) ?_
      rw [List.map_cons, heq]
      exact List.mem_cons_self _ _
    have hstep := dedupStep_inv p seen c hinv
      (hpre c (List.mem_append_right _ (List.mem_cons_self _ _)))
      (fun d hd => hpre d (List.mem_append_left _ hd)) hdist
    have hres := ih (p ++ [c]) (dedupStep seen c)
      (by
        intro d hd
        apply hpre
        rw [List.append_assoc, List.singleton_append] at hd
        exact hd)
      (by rw [List.append_assoc, List.singleton_append]; exact hnd)
      hstep
    rw [List.append_assoc, List.singleton_append] at hres
    rw [List.foldl_cons]
    exact hres

/-- Claim C1: provided component ids are unique and carry the component
prefix of the Normalizer (as in the pipeline), label deduplication keeps every
placeholder/unknown component; no two survivors share a dedup-keyed
(case-insensitive, stripped) label; every dedup-keyed input label has a
surviving representative of that label with confidence at least that of
every input component carrying it; and every survivor is an input
component. -/
theorem label_dedup_characterization (components : List Component)
    (hids : ((components.map (fun c => c.id)).Nodup))
    (hpre : ∀ c ∈ components, startsWithL (pyStr "component") c.id = true) :
    (∀ c ∈ components, keyedById c = true → c ∈ deduplicate_by_label components) ∧
    ((deduplicate_by_label components).Pairwise (fun a b =>
      keyedById a = false → keyedById b = false → cleanedLabel a ≠ cleanedLabel b)) ∧
    (∀ c ∈ components, keyedById c = false →
      ∃ v ∈ deduplicate_by_label components, keyedById v = false ∧
        cleanedLabel v = cleanedLabel c ∧ c.confidence ≤ v.confidence) ∧
    (∀ v ∈ deduplicate_by_label components, v ∈ components) := by
  have hinv0 : SeenInv [] [] :=
    ⟨by simp, by simp, by simp, by simp⟩
  have hinv := dedup_foldl_inv components [] [] (by simpa using hpre)
    (by simpa using hids) hinv0
  rw [List.nil_append] at hinv
  obtain ⟨hval, hkeys, hkeyed, hlabeled⟩ := hinv
  refine ⟨?_, ?_, ?_, ?_⟩
  · intro c hc hkc
    exact List.mem_map.mpr ⟨(c.id, c), hkeyed c hc hkc, rfl⟩
  · unfold deduplicate_by_label
    rw [List.pairwise_map]
    have hkp : (components.foldl dedupStep []).Pairwise (fun e1 e2 => e1.1 ≠ e2.1) :=
      List.pairwise_map.mp hkeys
    refine hkp.imp_of_mem ?_
    intro e1 e2 h1 h2 hne hk1 hk2
    have k1 := (hval e1 h1).2
    have k2 := (hval e2 h2).2
    rw [entryKey, if_neg (by rw [hk1]; simp)] at k1
    rw [entryKey, if_neg (by rw [hk2]; simp)] at k2
    intro hlab
    apply hne
    rw [k1, k2, hlab]
  · intro c hc hkc
    obtain ⟨v, hv, hvk, hvl, hvc⟩ := hlabeled c hc hkc
    exact ⟨v, List.mem_map.mpr ⟨(cleanedLabel c, v), hv, rfl⟩, hvk, hvl, hvc⟩
  · intro v hvmem
    obtain ⟨e, he, rfl⟩ := List.mem_map.mp hvmem
    exact (hval e he).1

/-- Witness for C1 at two Valve components (0.6 and 0.9) and one
unknown component. -/
theorem label_dedup_witness :
    (([valveComp1, valveComp2, unknownComp].map (fun c => c.id)).Nodup) ∧
    (∀ c ∈ [valveComp1, valveComp2, unknownComp],
      startsWithL (pyStr "component") c.id = true) ∧
    ((∀ c ∈ [valveComp1, valveComp2, unknownComp], keyedById c = true →
        c ∈ deduplicate_by_label [valveComp1, valveComp2, unknownComp]) ∧
      ((deduplicate_by_label [valveComp1, valveComp2, unknownComp]).Pairwise (fun a b =>
        keyedById a = false → keyedById b = false → cleanedLabel a ≠ cleanedLabel b)) ∧
      (∀ c ∈ [valveComp1, valveComp2, unknownComp], keyedById c = false →
        ∃ v ∈ deduplicate_by_label [valveComp1, valveComp2, unknownComp],
          keyedById v = false ∧ cleanedLabel v = cleanedLabel c ∧
          c.confidence ≤ v.confidence) ∧
      (∀ v ∈ deduplicate_by_label [valveComp1, valveComp2, unknownComp],
        v ∈ [valveComp1, valveComp2, unknownComp])) := by
  have h1 : ([valveComp1, valveComp2, unknownComp].map (fun c => c.id)).Nodup := by
    decide
  have h2 : ∀ c ∈ [valveComp1, valveComp2, unknownComp],
      startsWithL (pyStr "component") c.id = true := by
    decide
  exact ⟨h1, h2, label_dedup_characterization [valveComp1, valveComp2, unknownComp] h1 h2⟩
